import Mathlib

set_option linter.unusedSectionVars false

/-!
Shallow embedding of `src/VersionedKvStore.h` (a key-value store with
snapshot versions) and proofs of the specification's claims about it.

The C++ class `VersionedKvStore<K, V>` keeps, per key, a backward-linked
chain of `Diff` nodes (newest first) and a vector `sizes` of live-key
counts, one entry per version.  We model a chain as a `List (Diff V)`
whose head is the newest node (`prev_diff` links are the list tail), the
`unordered_map<K, Diff*>` as an association list (a missing key and a
key mapped to `nullptr` are observationally identical, so both are the
empty chain), and `size_t` arithmetic on `sizes` entries as `Nat`
arithmetic modulo `2 ^ 64` (the C++ `sizes.back() -= 1` wraps on
underflow).
-/

namespace VersionedKv

/-- Modulus of `size_t` arithmetic (64-bit unsigned). -/
def W64 : Nat := 2 ^ 64

/-- One node of a per-key diff chain: `Diff` from the C++ source, minus
the `prev_diff` pointer, which the enclosing list encodes. -/
structure Diff (V : Type) where
  deleted : Bool
  version : Nat
  value : V
deriving DecidableEq, Repr

/-- The store: `key_value_store` maps each key to its diff chain
(newest node first); `sizes` is the version ledger. -/
structure VersionedKvStore (K V : Type) where
  key_value_store : List (K × List (Diff V))
  sizes : List Nat
deriving DecidableEq

variable {K V : Type} [DecidableEq K] [DecidableEq V] [Inhabited V]

/-- Reading `key_value_store[key]`: the chain stored for `key`
(`[]` plays the role of `nullptr`). -/
def getChain : List (K × List (Diff V)) → K → List (Diff V)
  | [], _ => []
  | (k', c) :: rest, k => if k' = k then c else getChain rest k

/-- Writing `key_value_store[key] = chain`. -/
def setChain : List (K × List (Diff V)) → K → List (Diff V) → List (K × List (Diff V))
  | [], k, c => [(k, c)]
  | (k', c') :: rest, k, c =>
      if k' = k then (k, c) :: rest else (k', c') :: setChain rest k c

/-- Apply `f` to the last entry of a list (`sizes.back() op`); total, but
only ever used on the nonempty ledgers the store maintains. -/
def modLast (f : Nat → Nat) : List Nat → List Nat
  | [] => [f 0]
  | [x] => [f x]
  | x :: y :: ys => x :: modLast f (y :: ys)

/-- `VersionedKvStore::VersionedKvStore()`: `sizes.push_back(0)`. -/
def initStore : VersionedKvStore K V := ⟨[], [0]⟩

/-- `maxVersion()`: `sizes.size() - 1`. -/
def maxVersion (s : VersionedKvStore K V) : Nat := s.sizes.length - 1

/-- `size()`: `sizes.back()`. -/
def size (s : VersionedKvStore K V) : Nat := s.sizes.getLastD 0

/-- `diffsEqual(d1, d2)`: equal `value` and equal `deleted`. -/
def diffsEqual (d1 d2 : Diff V) : Bool :=
  d1.value == d2.value && d1.deleted == d2.deleted

/-- `checkAndDeleteRedundantDiff(key)` acting on the chain: if the head
has a predecessor holding equal state, drop the head. -/
def checkAndDeleteRedundantDiff : List (Diff V) → List (Diff V)
  | d1 :: d2 :: rest => if diffsEqual d1 d2 then d2 :: rest else d1 :: d2 :: rest
  | c => c

/-- `set(key, value)`: three branches (no chain / stale head / head at
the current version), then redundancy check.  A fresh node from
`newDiff()` carries `deleted = false` and `version = maxVersion()`. -/
def set (s : VersionedKvStore K V) (key : K) (value : V) : VersionedKvStore K V :=
  match getChain s.key_value_store key with
  | [] =>
      let d : Diff V := ⟨false, maxVersion s, value⟩
      ⟨setChain s.key_value_store key (checkAndDeleteRedundantDiff [d]),
       modLast (fun x => (x + 1) % W64) s.sizes⟩
  | h :: rest =>
      if h.version = maxVersion s then
        ⟨setChain s.key_value_store key
           (checkAndDeleteRedundantDiff (⟨false, h.version, value⟩ :: rest)),
         s.sizes⟩
      else
        let d : Diff V := ⟨false, maxVersion s, value⟩
        ⟨setChain s.key_value_store key
           (checkAndDeleteRedundantDiff (d :: h :: rest)),
         if h.deleted then modLast (fun x => (x + 1) % W64) s.sizes else s.sizes⟩

/-- `erase(key)`: early return when the chain is empty; otherwise push a
tombstone (stale head) or tombstone the head in place (current head),
decrement `sizes.back()` (wrapping `size_t`), and run the redundancy
check.  The pushed tombstone's `value` is the value-initialized `V()`. -/
def erase (s : VersionedKvStore K V) (key : K) : VersionedKvStore K V :=
  match getChain s.key_value_store key with
  | [] => s
  | h :: rest =>
      let c :=
        if h.version = maxVersion s then ⟨true, h.version, h.value⟩ :: rest
        else ⟨true, maxVersion s, (default : V)⟩ :: h :: rest
      ⟨setChain s.key_value_store key (checkAndDeleteRedundantDiff c),
       modLast (fun x => (x + W64 - 1) % W64) s.sizes⟩

/-- `save()`: push a copy of `size()` onto the ledger; the returned
version number is `maxVersion()` as read before the push. -/
def save (s : VersionedKvStore K V) : VersionedKvStore K V × Nat :=
  (⟨s.key_value_store, s.sizes ++ [size s]⟩, maxVersion s)

/-- `exists(key)`: the chain head exists and is not a tombstone. -/
def existsCur (s : VersionedKvStore K V) (key : K) : Bool :=
  match getChain s.key_value_store key with
  | [] => false
  | h :: _ => !h.deleted

/-- `get(key)`: the head's value when `exists(key)`, else `V()`. -/
def get (s : VersionedKvStore K V) (key : K) : V :=
  match getChain s.key_value_store key with
  | [] => default
  | h :: _ => if h.deleted then default else h.value

/-- `traverseToVersion(key, version_num)` acting on a chain: walk while
the predecessor's version still exceeds the request, then step back once
more if the landed node itself is too new. -/
def traverseToVersion (v : Nat) : List (Diff V) → Option (Diff V)
  | [] => none
  | [d] => if v < d.version then none else some d
  | d :: d2 :: rest =>
      if v < d2.version then traverseToVersion v (d2 :: rest)
      else if v < d.version then some d2 else some d

/-- `exists(key, version_num)`. -/
def existsAt (s : VersionedKvStore K V) (key : K) (v : Nat) : Bool :=
  match traverseToVersion v (getChain s.key_value_store key) with
  | none => false
  | some d => !d.deleted

/-- `get(key, version_num)`. -/
def getAt (s : VersionedKvStore K V) (key : K) (v : Nat) : V :=
  match traverseToVersion v (getChain s.key_value_store key) with
  | none => default
  | some d => if d.deleted then default else d.value

/-- `size(version_num)`: future versions fall back to `size()`. -/
def sizeAt (s : VersionedKvStore K V) (v : Nat) : Nat :=
  if maxVersion s < v then size s else s.sizes.getD v 0

/-- An API call, for describing operation sequences. -/
inductive Op (K V : Type) where
  | setOp (k : K) (v : V)
  | eraseOp (k : K)
  | saveOp
deriving DecidableEq, Repr

/-- Execute one call (for `save`, keeping the store and dropping the
returned version number). -/
def applyOp (s : VersionedKvStore K V) : Op K V → VersionedKvStore K V
  | .setOp k v => set s k v
  | .eraseOp k => erase s k
  | .saveOp => (save s).1

/-- Run a sequence of calls from a given store. -/
def runFrom (s : VersionedKvStore K V) (ops : List (Op K V)) : VersionedKvStore K V :=
  ops.foldl applyOp s

/-- Run a sequence of calls on a freshly constructed store. -/
def run (ops : List (Op K V)) : VersionedKvStore K V :=
  runFrom initStore ops

/-- The states a `VersionedKvStore` object can actually be in: those
produced from the constructor by the public API. -/
inductive Reachable : VersionedKvStore K V → Prop
  | init : Reachable initStore
  | set (s : VersionedKvStore K V) (k : K) (v : V) :
      Reachable s → Reachable (set s k v)
  | erase (s : VersionedKvStore K V) (k : K) :
      Reachable s → Reachable (erase s k)
  | save (s : VersionedKvStore K V) :
      Reachable s → Reachable (save s).1

/-! ### Invariants of reachable stores -/

/-- Versions strictly decrease from a chain's head backward. -/
def versionsDecreasing (c : List (Diff V)) : Prop :=
  c.Chain' (fun a b => b.version < a.version)

/-- No two adjacent chain nodes carry equal `(value, deleted)`. -/
def compacted (c : List (Diff V)) : Prop :=
  c.Chain' (fun a b => diffsEqual a b = false)

/-- The head node's version never exceeds the current version. -/
def headLE (mv : Nat) : List (Diff V) → Prop
  | [] => True
  | h :: _ => h.version ≤ mv

/-- The structural invariant every reachable store satisfies. -/
structure StoreInv (s : VersionedKvStore K V) : Prop where
  sizesNonempty : s.sizes ≠ []
  sorted : ∀ k, versionsDecreasing (getChain s.key_value_store k)
  compact : ∀ k, compacted (getChain s.key_value_store k)
  bounded : ∀ k, headLE (maxVersion s) (getChain s.key_value_store k)

/-- Whether a chain's head marks the key live (present, not tombstoned). -/
def liveB : List (Diff V) → Bool
  | [] => false
  | h :: _ => !h.deleted

/-- `1` when the chain marks its key live, else `0`. -/
def liveN (c : List (Diff V)) : Nat := if liveB c then 1 else 0

/-- The number of live keys in the store's map. -/
def liveCount : List (K × List (Diff V)) → Nat
  | [] => 0
  | p :: rest => liveN p.2 + liveCount rest

/-! ### Safe operation sequences

The amended size invariant restricts traces to the benign usage the
reference tests exercise: `erase` is only applied to a currently-live
key, and `set` never resurrects a key tombstoned inside the still-open
version (the two usages under which the C++ counter updates are
skipped or asymmetric). -/

/-- `set(k, _)` is counter-safe unless `k`'s head is a tombstone of the
still-open version (the in-place branch would revive it without a
counter increment). -/
def setSafe (s : VersionedKvStore K V) (k : K) : Bool :=
  match getChain s.key_value_store k with
  | [] => true
  | h :: _ => !(h.deleted && h.version == maxVersion s)

/-- Counter-safety of one call. -/
def opSafe (s : VersionedKvStore K V) : Op K V → Bool
  | .setOp k _ => setSafe s k
  | .eraseOp k => existsCur s k
  | .saveOp => true

/-- Counter-safety of a whole call sequence, step by step. -/
def traceSafe : VersionedKvStore K V → List (Op K V) → Bool
  | _, [] => true
  | s, op :: rest => opSafe s op && traceSafe (applyOp s op) rest

/-- `k` is passed to no `set` or `erase` call of the sequence. -/
def untouched (k : K) (ops : List (Op K V)) : Bool :=
  ops.all fun op =>
    match op with
    | .setOp k' _ => !(k' == k)
    | .eraseOp k' => !(k' == k)
    | .saveOp => true

/-- `set(k, x)` once, then `n` rounds of `save(); set(k, x)`. -/
def repSetSave (k : K) (x : V) (n : Nat) : VersionedKvStore K V :=
  (fun s => set (save s).1 k x)^[n] (set initStore k x)

/-- Spec-side definition for C4: the latest diff of a (newest-first)
chain whose version is at most `v` — its first match. -/
def latestDiffLE (v : Nat) (c : List (Diff V)) : Option (Diff V) :=
  c.find? (fun d => decide (d.version ≤ v))

/-! ### Branch equations for `set` and `erase` -/

theorem set_eq_nil (s : VersionedKvStore K V) (k : K) (v : V)
    (hg : getChain s.key_value_store k = []) :
    set s k v = ⟨setChain s.key_value_store k [⟨false, maxVersion s, v⟩],
      modLast (fun x => (x + 1) % W64) s.sizes⟩ := by
  simp [set, hg, checkAndDeleteRedundantDiff]

theorem set_eq_cur (s : VersionedKvStore K V) (k : K) (v : V) (hd : Diff V)
    (rest : List (Diff V)) (hg : getChain s.key_value_store k = hd :: rest)
    (hv : hd.version = maxVersion s) :
    set s k v = ⟨setChain s.key_value_store k
      (checkAndDeleteRedundantDiff (⟨false, hd.version, v⟩ :: rest)), s.sizes⟩ := by
  simp [set, hg, hv]

theorem set_eq_push (s : VersionedKvStore K V) (k : K) (v : V) (hd : Diff V)
    (rest : List (Diff V)) (hg : getChain s.key_value_store k = hd :: rest)
    (hv : hd.version ≠ maxVersion s) :
    set s k v = ⟨setChain s.key_value_store k
      (checkAndDeleteRedundantDiff (⟨false, maxVersion s, v⟩ :: hd :: rest)),
      if hd.deleted then modLast (fun x => (x + 1) % W64) s.sizes else s.sizes⟩ := by
  simp [set, hg, hv]

theorem erase_eq_nil (s : VersionedKvStore K V) (k : K)
    (hg : getChain s.key_value_store k = []) : erase s k = s := by
  simp [erase, hg]

theorem erase_eq_cur (s : VersionedKvStore K V) (k : K) (hd : Diff V)
    (rest : List (Diff V)) (hg : getChain s.key_value_store k = hd :: rest)
    (hv : hd.version = maxVersion s) :
    erase s k = ⟨setChain s.key_value_store k
      (checkAndDeleteRedundantDiff (⟨true, hd.version, hd.value⟩ :: rest)),
      modLast (fun x => (x + W64 - 1) % W64) s.sizes⟩ := by
  simp [erase, hg, hv]

theorem erase_eq_push (s : VersionedKvStore K V) (k : K) (hd : Diff V)
    (rest : List (Diff V)) (hg : getChain s.key_value_store k = hd :: rest)
    (hv : hd.version ≠ maxVersion s) :
    erase s k = ⟨setChain s.key_value_store k
      (checkAndDeleteRedundantDiff (⟨true, maxVersion s, (default : V)⟩ :: hd :: rest)),
      modLast (fun x => (x + W64 - 1) % W64) s.sizes⟩ := by
  simp [erase, hg, hv]

/-! ### Association list and ledger lemmas -/

theorem getChain_setChain_self (m : List (K × List (Diff V))) (k : K) (c : List (Diff V)) :
    getChain (setChain m k c) k = c := by
  induction m with
  | nil => simp [setChain, getChain]
  | cons p rest ih =>
      obtain ⟨k', c'⟩ := p
      by_cases hk : k' = k
      · simp [setChain, hk, getChain]
      · simp [setChain, hk, getChain, ih]

theorem getChain_setChain_ne (m : List (K × List (Diff V))) (k k' : K) (c : List (Diff V))
    (hk : k' ≠ k) : getChain (setChain m k c) k' = getChain m k' := by
  induction m with
  | nil => simp [setChain, getChain, Ne.symm hk]
  | cons p rest ih =>
      obtain ⟨k'', c''⟩ := p
      by_cases h1 : k'' = k
      · subst h1
        simp [setChain, getChain, Ne.symm hk]
      · simp only [setChain, if_neg h1, getChain]
        by_cases h2 : k'' = k'
        · simp [h2]
        · simp [h2, ih]

theorem modLast_ne_nil (f : Nat → Nat) (l : List Nat) : modLast f l ≠ [] := by
  match l with
  | [] => simp [modLast]
  | [x] => simp [modLast]
  | x :: y :: ys => simp [modLast]

theorem length_modLast (f : Nat → Nat) (l : List Nat) (h : l ≠ []) :
    (modLast f l).length = l.length := by
  induction l with
  | nil => simp at h
  | cons x xs ih =>
      match xs, ih with
      | [], _ => simp [modLast]
      | y :: ys, ih => simp [modLast]; exact ih (by simp)

theorem getLastD_of_ne_nil (l : List Nat) (a b : Nat) (h : l ≠ []) :
    l.getLastD a = l.getLastD b := by
  cases l with
  | nil => simp at h
  | cons x xs => rw [List.getLastD_cons, List.getLastD_cons]

theorem getLastD_modLast (f : Nat → Nat) (l : List Nat) :
    (modLast f l).getLastD 0 = f (l.getLastD 0) := by
  induction l with
  | nil => simp [modLast]
  | cons x xs ih =>
      match xs, ih with
      | [], _ => simp [modLast]
      | y :: ys, ih =>
          have h1 : modLast f (y :: ys) ≠ [] := modLast_ne_nil f _
          have h2 : (y :: ys) ≠ [] := by simp
          calc (modLast f (x :: y :: ys)).getLastD 0
              = (modLast f (y :: ys)).getLastD x := by
                simp only [modLast]
                rw [List.getLastD_cons]
            _ = (modLast f (y :: ys)).getLastD 0 := getLastD_of_ne_nil _ _ _ h1
            _ = f ((y :: ys).getLastD 0) := ih
            _ = f ((y :: ys).getLastD x) := congrArg f (getLastD_of_ne_nil _ _ _ h2)
            _ = f ((x :: y :: ys).getLastD 0) := by simp only [List.getLastD_cons]

theorem getD_modLast (f : Nat → Nat) (l : List Nat) (i : Nat) (h : i + 1 < l.length) :
    (modLast f l).getD i 0 = l.getD i 0 := by
  induction l generalizing i with
  | nil => simp at h
  | cons x xs ih =>
      match xs, ih with
      | [], _ => simp at h
      | y :: ys, ih =>
          cases i with
          | zero => simp [modLast]
          | succ j =>
              have hj : j + 1 < (y :: ys).length := by
                simpa using Nat.lt_of_succ_lt_succ h
              simpa [modLast, List.getD_cons_succ] using ih j hj

theorem diffsEqual_iff (d1 d2 : Diff V) :
    diffsEqual d1 d2 = true ↔ d1.value = d2.value ∧ d1.deleted = d2.deleted := by
  simp [diffsEqual]

/-! ### Invariants of reachable stores -/

theorem headLE_mono {mv mv' : Nat} (h : mv ≤ mv') (c : List (Diff V)) :
    headLE mv c → headLE mv' c := by
  cases c with
  | nil => intro _; trivial
  | cons d rest => exact fun hd => Nat.le_trans hd h

/-- Pushing a strictly newer head and compacting preserves the chain
invariants. -/
theorem push_inv (h : Diff V) (rest : List (Diff V)) (d : Diff V) (mv : Nat)
    (hs : versionsDecreasing (h :: rest)) (hc : compacted (h :: rest))
    (hv : h.version < d.version) (hd : d.version ≤ mv) :
    versionsDecreasing (checkAndDeleteRedundantDiff (d :: h :: rest)) ∧
    compacted (checkAndDeleteRedundantDiff (d :: h :: rest)) ∧
    headLE mv (checkAndDeleteRedundantDiff (d :: h :: rest)) := by
  by_cases he : diffsEqual d h = true
  · simp only [checkAndDeleteRedundantDiff, he, if_true]
    exact ⟨hs, hc, Nat.le_trans (Nat.le_of_lt hv) hd⟩
  · simp only [checkAndDeleteRedundantDiff, he, if_false]
    refine ⟨?_, ?_, hd⟩
    · exact (List.chain'_cons.2 ⟨hv, hs⟩)
    · exact (List.chain'_cons.2 ⟨Bool.eq_false_iff.2 he, hc⟩)

/-- Replacing the head with a node of the same version and compacting
preserves the chain invariants. -/
theorem replace_inv (h : Diff V) (rest : List (Diff V)) (d : Diff V) (mv : Nat)
    (hs : versionsDecreasing (h :: rest)) (hc : compacted (h :: rest))
    (hv : d.version = h.version) (hd : h.version ≤ mv) :
    versionsDecreasing (checkAndDeleteRedundantDiff (d :: rest)) ∧
    compacted (checkAndDeleteRedundantDiff (d :: rest)) ∧
    headLE mv (checkAndDeleteRedundantDiff (d :: rest)) := by
  cases rest with
  | nil =>
      refine ⟨List.chain'_singleton _, List.chain'_singleton _, ?_⟩
      show d.version ≤ mv
      rw [hv]; exact hd
  | cons h2 rest2 =>
      have hs2 : h2.version < h.version := (List.chain'_cons.1 hs).1
      have hstail : versionsDecreasing (h2 :: rest2) := (List.chain'_cons.1 hs).2
      have hctail : compacted (h2 :: rest2) := (List.chain'_cons.1 hc).2
      by_cases he : diffsEqual d h2 = true
      · simp only [checkAndDeleteRedundantDiff, he, if_true]
        exact ⟨hstail, hctail, Nat.le_trans (Nat.le_of_lt hs2) hd⟩
      · have he' : diffsEqual d h2 = false := Bool.eq_false_iff.2 he
        simp only [checkAndDeleteRedundantDiff, he, if_false]
        refine ⟨List.chain'_cons.2 ⟨?_, hstail⟩, List.chain'_cons.2 ⟨he', hctail⟩, ?_⟩
        · rw [hv]; exact hs2
        · show d.version ≤ mv
          rw [hv]; exact hd

theorem maxVersion_set (s : VersionedKvStore K V) (k : K) (v : V) (h : s.sizes ≠ []) :
    maxVersion (set s k v) = maxVersion s := by
  cases hg : getChain s.key_value_store k with
  | nil => rw [set_eq_nil s k v hg]; simp [maxVersion, length_modLast _ _ h]
  | cons hd rest =>
      by_cases hver : hd.version = maxVersion s
      · rw [set_eq_cur s k v hd rest hg hver]
        rfl
      · rw [set_eq_push s k v hd rest hg hver]
        by_cases hdel : hd.deleted <;>
          simp [hdel, maxVersion, length_modLast _ _ h]

theorem length_sizes_set (s : VersionedKvStore K V) (k : K) (v : V) (h : s.sizes ≠ []) :
    (set s k v).sizes.length = s.sizes.length := by
  cases hg : getChain s.key_value_store k with
  | nil => rw [set_eq_nil s k v hg]; simp [length_modLast _ _ h]
  | cons hd rest =>
      by_cases hver : hd.version = maxVersion s
      · rw [set_eq_cur s k v hd rest hg hver]
      · rw [set_eq_push s k v hd rest hg hver]
        by_cases hdel : hd.deleted <;> simp [hdel, length_modLast _ _ h]

theorem sizes_set_ne_nil (s : VersionedKvStore K V) (k : K) (v : V) (h : s.sizes ≠ []) :
    (set s k v).sizes ≠ [] := by
  cases hg : getChain s.key_value_store k with
  | nil => rw [set_eq_nil s k v hg]; simp [modLast_ne_nil]
  | cons hd rest =>
      by_cases hver : hd.version = maxVersion s
      · rw [set_eq_cur s k v hd rest hg hver]
        exact h
      · rw [set_eq_push s k v hd rest hg hver]
        by_cases hdel : hd.deleted <;> simp [hdel, modLast_ne_nil, h]

theorem storeInv_init : StoreInv (initStore : VersionedKvStore K V) := by
  refine ⟨by simp [initStore], ?_, ?_, ?_⟩ <;>
    intro k <;> simp [initStore, getChain, versionsDecreasing, compacted, headLE]

theorem getChain_set_ne (s : VersionedKvStore K V) (k : K) (v : V) (k' : K) (hk : k' ≠ k) :
    getChain (set s k v).key_value_store k' = getChain s.key_value_store k' := by
  cases hg : getChain s.key_value_store k with
  | nil => rw [set_eq_nil s k v hg]; exact getChain_setChain_ne _ _ _ _ hk
  | cons hd rest =>
      by_cases hver : hd.version = maxVersion s
      · rw [set_eq_cur s k v hd rest hg hver]; exact getChain_setChain_ne _ _ _ _ hk
      · rw [set_eq_push s k v hd rest hg hver]; exact getChain_setChain_ne _ _ _ _ hk

theorem storeInv_set (s : VersionedKvStore K V) (k : K) (v : V) (hinv : StoreInv s) :
    StoreInv (set s k v) := by
  have hmv : maxVersion (set s k v) = maxVersion s :=
    maxVersion_set s k v hinv.sizesNonempty
  have hkey : versionsDecreasing (getChain (set s k v).key_value_store k) ∧
      compacted (getChain (set s k v).key_value_store k) ∧
      headLE (maxVersion s) (getChain (set s k v).key_value_store k) := by
    cases hg : getChain s.key_value_store k with
    | nil =>
        rw [set_eq_nil s k v hg]
        simp only [getChain_setChain_self]
        exact ⟨List.chain'_singleton _, List.chain'_singleton _, Nat.le_refl _⟩
    | cons hd rest =>
        have hs0 : versionsDecreasing (hd :: rest) := hg ▸ hinv.sorted k
        have hc0 : compacted (hd :: rest) := hg ▸ hinv.compact k
        have hb0 : hd.version ≤ maxVersion s := by
          have := hinv.bounded k
          rw [hg] at this
          exact this
        by_cases hver : hd.version = maxVersion s
        · rw [set_eq_cur s k v hd rest hg hver]
          simp only [getChain_setChain_self]
          exact replace_inv hd rest ⟨false, hd.version, v⟩ (maxVersion s) hs0 hc0 rfl hb0
        · rw [set_eq_push s k v hd rest hg hver]
          simp only [getChain_setChain_self]
          exact push_inv hd rest ⟨false, maxVersion s, v⟩ (maxVersion s) hs0 hc0
            (Nat.lt_of_le_of_ne hb0 hver) (Nat.le_refl _)
  refine ⟨sizes_set_ne_nil s k v hinv.sizesNonempty, ?_, ?_, ?_⟩ <;> intro k'
  · by_cases hk : k' = k
    · rw [hk]; exact hkey.1
    · rw [getChain_set_ne s k v k' hk]; exact hinv.sorted k'
  · by_cases hk : k' = k
    · rw [hk]; exact hkey.2.1
    · rw [getChain_set_ne s k v k' hk]; exact hinv.compact k'
  · rw [hmv]
    by_cases hk : k' = k
    · rw [hk]; exact hkey.2.2
    · rw [getChain_set_ne s k v k' hk]; exact hinv.bounded k'

theorem getChain_erase_ne (s : VersionedKvStore K V) (k k' : K) (hk : k' ≠ k) :
    getChain (erase s k).key_value_store k' = getChain s.key_value_store k' := by
  cases hg : getChain s.key_value_store k with
  | nil => rw [erase_eq_nil s k hg]
  | cons hd rest =>
      by_cases hver : hd.version = maxVersion s
      · rw [erase_eq_cur s k hd rest hg hver]; exact getChain_setChain_ne _ _ _ _ hk
      · rw [erase_eq_push s k hd rest hg hver]; exact getChain_setChain_ne _ _ _ _ hk

theorem maxVersion_erase (s : VersionedKvStore K V) (k : K) (h : s.sizes ≠ []) :
    maxVersion (erase s k) = maxVersion s := by
  cases hg : getChain s.key_value_store k with
  | nil => rw [erase_eq_nil s k hg]
  | cons hd rest =>
      by_cases hver : hd.version = maxVersion s
      · rw [erase_eq_cur s k hd rest hg hver]
        simp [maxVersion, length_modLast _ _ h]
      · rw [erase_eq_push s k hd rest hg hver]
        simp [maxVersion, length_modLast _ _ h]

theorem sizes_erase_ne_nil (s : VersionedKvStore K V) (k : K) (h : s.sizes ≠ []) :
    (erase s k).sizes ≠ [] := by
  cases hg : getChain s.key_value_store k with
  | nil => rw [erase_eq_nil s k hg]; exact h
  | cons hd rest =>
      by_cases hver : hd.version = maxVersion s
      · rw [erase_eq_cur s k hd rest hg hver]; simp [modLast_ne_nil]
      · rw [erase_eq_push s k hd rest hg hver]; simp [modLast_ne_nil]

theorem storeInv_erase (s : VersionedKvStore K V) (k : K) (hinv : StoreInv s) :
    StoreInv (erase s k) := by
  have hmv : maxVersion (erase s k) = maxVersion s :=
    maxVersion_erase s k hinv.sizesNonempty
  have hkey : versionsDecreasing (getChain (erase s k).key_value_store k) ∧
      compacted (getChain (erase s k).key_value_store k) ∧
      headLE (maxVersion s) (getChain (erase s k).key_value_store k) := by
    cases hg : getChain s.key_value_store k with
    | nil =>
        rw [erase_eq_nil s k hg, hg]
        exact ⟨List.chain'_nil, List.chain'_nil, trivial⟩
    | cons hd rest =>
        have hs0 : versionsDecreasing (hd :: rest) := hg ▸ hinv.sorted k
        have hc0 : compacted (hd :: rest) := hg ▸ hinv.compact k
        have hb0 : hd.version ≤ maxVersion s := by
          have := hinv.bounded k
          rw [hg] at this
          exact this
        by_cases hver : hd.version = maxVersion s
        · rw [erase_eq_cur s k hd rest hg hver]
          simp only [getChain_setChain_self]
          exact replace_inv hd rest ⟨true, hd.version, hd.value⟩ (maxVersion s) hs0 hc0 rfl hb0
        · rw [erase_eq_push s k hd rest hg hver]
          simp only [getChain_setChain_self]
          exact push_inv hd rest ⟨true, maxVersion s, (default : V)⟩ (maxVersion s) hs0 hc0
            (Nat.lt_of_le_of_ne hb0 hver) (Nat.le_refl _)
  refine ⟨sizes_erase_ne_nil s k hinv.sizesNonempty, ?_, ?_, ?_⟩ <;> intro k'
  · by_cases hk : k' = k
    · rw [hk]; exact hkey.1
    · rw [getChain_erase_ne s k k' hk]; exact hinv.sorted k'
  · by_cases hk : k' = k
    · rw [hk]; exact hkey.2.1
    · rw [getChain_erase_ne s k k' hk]; exact hinv.compact k'
  · rw [hmv]
    by_cases hk : k' = k
    · rw [hk]; exact hkey.2.2
    · rw [getChain_erase_ne s k k' hk]; exact hinv.bounded k'

theorem getChain_save (s : VersionedKvStore K V) (k : K) :
    getChain (save s).1.key_value_store k = getChain s.key_value_store k := rfl

theorem maxVersion_save (s : VersionedKvStore K V) :
    maxVersion (save s).1 = s.sizes.length := by
  simp [save, maxVersion]

theorem storeInv_save (s : VersionedKvStore K V) (hinv : StoreInv s) :
    StoreInv (save s).1 := by
  refine ⟨by simp [save], ?_, ?_, ?_⟩ <;> intro k
  · exact hinv.sorted k
  · exact hinv.compact k
  · rw [getChain_save, maxVersion_save]
    exact headLE_mono (Nat.sub_le _ _) _ (hinv.bounded k)

theorem reachable_inv (s : VersionedKvStore K V) (h : Reachable s) : StoreInv s := by
  induction h with
  | init => exact storeInv_init
  | set s k v _ ih => exact storeInv_set s k v ih
  | erase s k _ ih => exact storeInv_erase s k ih
  | save s _ ih => exact storeInv_save s ih

/-! ### Traversal lemmas -/

/-- On a sorted chain whose head is old enough, the traversal stops at
the head. -/
theorem traverse_head_le (d : Diff V) (rest : List (Diff V)) (v : Nat)
    (hs : versionsDecreasing (d :: rest)) (hd : d.version ≤ v) :
    traverseToVersion v (d :: rest) = some d := by
  cases rest with
  | nil => simp [traverseToVersion, Nat.not_lt.2 hd]
  | cons d2 rest2 =>
      have h2 : d2.version < d.version := (List.chain'_cons.1 hs).1
      have hn2 : ¬v < d2.version := Nat.not_lt.2 (Nat.le_trans (Nat.le_of_lt h2) hd)
      simp [traverseToVersion, hn2, Nat.not_lt.2 hd]

/-- On a sorted chain, `traverseToVersion` returns exactly the first
(i.e. latest) diff whose version is at most the requested one. -/
theorem traverse_eq_find (v : Nat) (c : List (Diff V)) (hs : versionsDecreasing c) :
    traverseToVersion v c = c.find? (fun d => decide (d.version ≤ v)) := by
  induction c with
  | nil => simp [traverseToVersion]
  | cons d tail ih =>
      cases tail with
      | nil =>
          by_cases hd : v < d.version
          · simp [traverseToVersion, hd, Nat.not_le.2 hd]
          · simp [traverseToVersion, hd, Nat.not_lt.1 hd]
      | cons d2 rest =>
          have h21 : d2.version < d.version := (List.chain'_cons.1 hs).1
          have hstail : versionsDecreasing (d2 :: rest) := (List.chain'_cons.1 hs).2
          by_cases h2 : v < d2.version
          · have hdv : v < d.version := Nat.lt_trans h2 h21
            rw [List.find?_cons_of_neg _ (by simp [Nat.not_le.2 hdv])]
            rw [← ih hstail]
            simp [traverseToVersion, h2]
          · by_cases hdv : v < d.version
            · rw [List.find?_cons_of_neg _ (by simp [Nat.not_le.2 hdv])]
              rw [List.find?_cons_of_pos _ (by simp [Nat.not_lt.1 h2])]
              simp [traverseToVersion, h2, hdv]
            · rw [List.find?_cons_of_pos _ (by simp [Nat.not_lt.1 hdv])]
              simp [traverseToVersion, h2, hdv]

/-! ### Live-key counting -/

theorem liveCount_setChain (m : List (K × List (Diff V))) (k : K) (c : List (Diff V)) :
    liveCount (setChain m k c) + liveN (getChain m k) = liveCount m + liveN c := by
  induction m with
  | nil => simp [setChain, getChain, liveCount, liveN, liveB]
  | cons p rest ih =>
      obtain ⟨k', c'⟩ := p
      by_cases hk : k' = k
      · simp only [setChain, if_pos hk, getChain, liveCount]
        omega
      · simp only [setChain, if_neg hk, getChain, liveCount]
        omega

theorem liveN_ccd (d : Diff V) (tail : List (Diff V)) :
    liveN (checkAndDeleteRedundantDiff (d :: tail)) = liveN [d] := by
  cases tail with
  | nil => rfl
  | cons d2 rest =>
      cases he : diffsEqual d d2 with
      | true =>
          have hdel : d.deleted = d2.deleted := ((diffsEqual_iff _ _).1 he).2
          simp [checkAndDeleteRedundantDiff, he, liveN, liveB, hdel]
      | false => simp [checkAndDeleteRedundantDiff, he, liveN, liveB]

theorem runFrom_append (s : VersionedKvStore K V) (as bs : List (Op K V)) :
    runFrom s (as ++ bs) = runFrom (runFrom s as) bs := by
  simp [runFrom, List.foldl_append]

theorem traceSafe_append (s : VersionedKvStore K V) (as bs : List (Op K V)) :
    traceSafe s (as ++ bs) = (traceSafe s as && traceSafe (runFrom s as) bs) := by
  induction as generalizing s with
  | nil => simp [traceSafe, runFrom]
  | cons op rest ih =>
      show (opSafe s op && traceSafe (applyOp s op) (rest ++ bs)) =
        ((opSafe s op && traceSafe (applyOp s op) rest) &&
          traceSafe (runFrom (applyOp s op) rest) bs)
      rw [ih (applyOp s op), Bool.and_assoc]

theorem getLastD_append_singleton (l : List Nat) (x : Nat) :
    (l ++ [x]).getLastD 0 = x := by
  induction l with
  | nil => rfl
  | cons a as ih =>
      calc ((a :: as) ++ [x]).getLastD 0
          = (as ++ [x]).getLastD a := by rw [List.cons_append, List.getLastD_cons]
        _ = (as ++ [x]).getLastD 0 := getLastD_of_ne_nil _ _ _ (by simp)
        _ = x := ih

theorem size_set_nil (s : VersionedKvStore K V) (k : K) (v : V)
    (hg : getChain s.key_value_store k = []) :
    size (set s k v) = (size s + 1) % W64 := by
  rw [set_eq_nil s k v hg]
  show (modLast (fun x => (x + 1) % W64) s.sizes).getLastD 0 = _
  rw [getLastD_modLast]
  rfl

theorem size_set_cur (s : VersionedKvStore K V) (k : K) (v : V) (hd : Diff V)
    (rest : List (Diff V)) (hg : getChain s.key_value_store k = hd :: rest)
    (hver : hd.version = maxVersion s) : size (set s k v) = size s := by
  rw [set_eq_cur s k v hd rest hg hver]
  rfl

theorem size_set_push (s : VersionedKvStore K V) (k : K) (v : V) (hd : Diff V)
    (rest : List (Diff V)) (hg : getChain s.key_value_store k = hd :: rest)
    (hver : hd.version ≠ maxVersion s) :
    size (set s k v) = if hd.deleted then (size s + 1) % W64 else size s := by
  rw [set_eq_push s k v hd rest hg hver]
  cases hdel : hd.deleted with
  | true =>
      show (modLast (fun x => (x + 1) % W64) s.sizes).getLastD 0 = _
      rw [getLastD_modLast]
      simp [size]
  | false => simp [size]

theorem size_erase_cons (s : VersionedKvStore K V) (k : K) (hd : Diff V)
    (rest : List (Diff V)) (hg : getChain s.key_value_store k = hd :: rest) :
    size (erase s k) = (size s + W64 - 1) % W64 := by
  by_cases hver : hd.version = maxVersion s
  · rw [erase_eq_cur s k hd rest hg hver]
    show (modLast (fun x => (x + W64 - 1) % W64) s.sizes).getLastD 0 = _
    rw [getLastD_modLast]
    rfl
  · rw [erase_eq_push s k hd rest hg hver]
    show (modLast (fun x => (x + W64 - 1) % W64) s.sizes).getLastD 0 = _
    rw [getLastD_modLast]
    rfl

theorem liveCount_set_nil (s : VersionedKvStore K V) (k : K) (v : V)
    (hg : getChain s.key_value_store k = []) :
    liveCount (set s k v).key_value_store = liveCount s.key_value_store + 1 := by
  rw [set_eq_nil s k v hg]
  have hadd := liveCount_setChain s.key_value_store k [⟨false, maxVersion s, v⟩]
  rw [hg] at hadd
  have hnew : liveN [(⟨false, maxVersion s, v⟩ : Diff V)] = 1 := by simp [liveN, liveB]
  have hold : liveN ([] : List (Diff V)) = 0 := by simp [liveN, liveB]
  rw [hnew, hold] at hadd
  dsimp only
  omega

theorem liveCount_set_cons (s : VersionedKvStore K V) (k : K) (v : V) (hd : Diff V)
    (rest : List (Diff V)) (hg : getChain s.key_value_store k = hd :: rest) :
    liveCount (set s k v).key_value_store + liveN (hd :: rest) =
      liveCount s.key_value_store + 1 := by
  by_cases hver : hd.version = maxVersion s
  · rw [set_eq_cur s k v hd rest hg hver]
    have hadd := liveCount_setChain s.key_value_store k
      (checkAndDeleteRedundantDiff (⟨false, hd.version, v⟩ :: rest))
    rw [hg, liveN_ccd] at hadd
    have hnew : liveN [(⟨false, hd.version, v⟩ : Diff V)] = 1 := by simp [liveN, liveB]
    rw [hnew] at hadd
    dsimp only
    omega
  · rw [set_eq_push s k v hd rest hg hver]
    have hadd := liveCount_setChain s.key_value_store k
      (checkAndDeleteRedundantDiff (⟨false, maxVersion s, v⟩ :: hd :: rest))
    rw [hg, liveN_ccd] at hadd
    have hnew : liveN [(⟨false, maxVersion s, v⟩ : Diff V)] = 1 := by simp [liveN, liveB]
    rw [hnew] at hadd
    dsimp only
    omega

theorem liveCount_erase_cons (s : VersionedKvStore K V) (k : K) (hd : Diff V)
    (rest : List (Diff V)) (hg : getChain s.key_value_store k = hd :: rest) :
    liveCount (erase s k).key_value_store + liveN (hd :: rest) =
      liveCount s.key_value_store := by
  by_cases hver : hd.version = maxVersion s
  · rw [erase_eq_cur s k hd rest hg hver]
    have hadd := liveCount_setChain s.key_value_store k
      (checkAndDeleteRedundantDiff (⟨true, hd.version, hd.value⟩ :: rest))
    rw [hg, liveN_ccd] at hadd
    have hnew : liveN [(⟨true, hd.version, hd.value⟩ : Diff V)] = 0 := by simp [liveN, liveB]
    rw [hnew] at hadd
    dsimp only
    omega
  · rw [erase_eq_push s k hd rest hg hver]
    have hadd := liveCount_setChain s.key_value_store k
      (checkAndDeleteRedundantDiff (⟨true, maxVersion s, (default : V)⟩ :: hd :: rest))
    rw [hg, liveN_ccd] at hadd
    have hnew : liveN [(⟨true, maxVersion s, (default : V)⟩ : Diff V)] = 0 := by
      simp [liveN, liveB]
    rw [hnew] at hadd
    dsimp only
    omega

/-- One counter-safe call keeps `sizes.back()` equal to the number of
live keys (and can raise the live count by at most one). -/
theorem step_live (s : VersionedKvStore K V) (op : Op K V)
    (hsafe : opSafe s op = true) (hne : s.sizes ≠ [])
    (hsz : size s = liveCount s.key_value_store)
    (hb : liveCount s.key_value_store + 1 < W64) :
    size (applyOp s op) = liveCount (applyOp s op).key_value_store ∧
    liveCount (applyOp s op).key_value_store ≤ liveCount s.key_value_store + 1 := by
  cases op with
  | saveOp =>
      refine ⟨?_, Nat.le_succ _⟩
      show size (save s).1 = liveCount (save s).1.key_value_store
      calc size (save s).1 = (s.sizes ++ [size s]).getLastD 0 := rfl
        _ = size s := getLastD_append_singleton _ _
        _ = liveCount s.key_value_store := hsz
  | setOp k v =>
      show size (set s k v) = liveCount (set s k v).key_value_store ∧
        liveCount (set s k v).key_value_store ≤ liveCount s.key_value_store + 1
      cases hg : getChain s.key_value_store k with
      | nil =>
          rw [size_set_nil s k v hg, liveCount_set_nil s k v hg, hsz,
            Nat.mod_eq_of_lt hb]
          omega
      | cons hd rest =>
          have hadd := liveCount_set_cons s k v hd rest hg
          by_cases hver : hd.version = maxVersion s
          · have hdel : hd.deleted = false := by
              have hss : setSafe s k = true := hsafe
              rw [setSafe, hg] at hss
              simp [hver] at hss
              exact hss
            have hold : liveN (hd :: rest) = 1 := by simp [liveN, liveB, hdel]
            rw [hold] at hadd
            rw [size_set_cur s k v hd rest hg hver, hsz]
            omega
          · rw [size_set_push s k v hd rest hg hver]
            cases hdel : hd.deleted with
            | true =>
                have hold : liveN (hd :: rest) = 0 := by simp [liveN, liveB, hdel]
                rw [hold] at hadd
                rw [if_pos rfl, hsz, Nat.mod_eq_of_lt hb]
                omega
            | false =>
                have hold : liveN (hd :: rest) = 1 := by simp [liveN, liveB, hdel]
                rw [hold] at hadd
                rw [if_neg (by simp), hsz]
                omega
  | eraseOp k =>
      have hex : existsCur s k = true := hsafe
      rw [existsCur] at hex
      show size (erase s k) = liveCount (erase s k).key_value_store ∧
        liveCount (erase s k).key_value_store ≤ liveCount s.key_value_store + 1
      cases hg : getChain s.key_value_store k with
      | nil => rw [hg] at hex; simp at hex
      | cons hd rest =>
          rw [hg] at hex
          have hex2 : (!hd.deleted) = true := hex
          have hdel : hd.deleted = false := by simpa using hex2
          have hold : liveN (hd :: rest) = 1 := by simp [liveN, liveB, hdel]
          have hadd := liveCount_erase_cons s k hd rest hg
          rw [hold] at hadd
          rw [size_erase_cons s k hd rest hg, hsz]
          have h1 : liveCount s.key_value_store =
              liveCount (erase s k).key_value_store + 1 := by omega
          rw [h1]
          have h2 : liveCount (erase s k).key_value_store + 1 + W64 - 1 =
              liveCount (erase s k).key_value_store + W64 := by omega
          rw [h2, Nat.add_mod_right, Nat.mod_eq_of_lt (by omega)]
          omega

theorem sizes_applyOp_ne_nil (s : VersionedKvStore K V) (op : Op K V) (h : s.sizes ≠ []) :
    (applyOp s op).sizes ≠ [] := by
  cases op with
  | setOp k v => exact sizes_set_ne_nil s k v h
  | eraseOp k => exact sizes_erase_ne_nil s k h
  | saveOp => simp [applyOp, save]

/-- Along a counter-safe trace whose live count cannot overflow,
`sizes.back()` tracks the exact live-key count. -/
theorem trace_live (ops : List (Op K V)) (s : VersionedKvStore K V)
    (hsafe : traceSafe s ops = true) (hne : s.sizes ≠ [])
    (hsz : size s = liveCount s.key_value_store)
    (hb : liveCount s.key_value_store + ops.length < W64) :
    size (runFrom s ops) = liveCount (runFrom s ops).key_value_store ∧
    (runFrom s ops).sizes ≠ [] := by
  induction ops generalizing s with
  | nil => exact ⟨hsz, hne⟩
  | cons op rest ih =>
      rw [traceSafe, Bool.and_eq_true] at hsafe
      have hstep := step_live s op hsafe.1 hne hsz (by simp at hb; omega)
      have hrun : runFrom s (op :: rest) = runFrom (applyOp s op) rest := rfl
      rw [hrun]
      exact ih (applyOp s op) hsafe.2 (sizes_applyOp_ne_nil s op hne) hstep.1
        (by simp at hb ⊢; omega)

theorem getD_append_left (l : List Nat) (x : Nat) (i : Nat) (hi : i < l.length) :
    (l ++ [x]).getD i 0 = l.getD i 0 := by
  induction l generalizing i with
  | nil => simp at hi
  | cons a as ih =>
      cases i with
      | zero => rfl
      | succ j =>
          have hj : j < as.length := by simpa using Nat.lt_of_succ_lt_succ hi
          show (as ++ [x]).getD j 0 = as.getD j 0
          exact ih j hj

theorem getD_last (l : List Nat) (h : l ≠ []) :
    l.getD (l.length - 1) 0 = l.getLastD 0 := by
  induction l with
  | nil => simp at h
  | cons a as ih =>
      cases as with
      | nil => rfl
      | cons b bs =>
          have h2 : (b :: bs) ≠ [] := by simp
          calc (a :: b :: bs).getD ((a :: b :: bs).length - 1) 0
              = (b :: bs).getD ((b :: bs).length - 1) 0 := by
                simp [List.getD_cons_succ]
            _ = (b :: bs).getLastD 0 := ih h2
            _ = (b :: bs).getLastD a := getLastD_of_ne_nil _ _ _ h2
            _ = (a :: b :: bs).getLastD 0 := by simp only [List.getLastD_cons]

theorem sizes_applyOp_cases (s : VersionedKvStore K V) (op : Op K V) :
    (applyOp s op).sizes = s.sizes ∨
    (∃ f, (applyOp s op).sizes = modLast f s.sizes) ∨
    (applyOp s op).sizes = s.sizes ++ [size s] := by
  cases op with
  | saveOp => exact Or.inr (Or.inr rfl)
  | setOp k v =>
      show (set s k v).sizes = s.sizes ∨
        (∃ f, (set s k v).sizes = modLast f s.sizes) ∨
        (set s k v).sizes = s.sizes ++ [size s]
      cases hg : getChain s.key_value_store k with
      | nil =>
          refine Or.inr (Or.inl ⟨fun x => (x + 1) % W64, ?_⟩)
          rw [set_eq_nil s k v hg]
      | cons hd rest =>
          by_cases hver : hd.version = maxVersion s
          · exact Or.inl (by rw [set_eq_cur s k v hd rest hg hver])
          · cases hdel : hd.deleted with
            | true =>
                refine Or.inr (Or.inl ⟨fun x => (x + 1) % W64, ?_⟩)
                rw [set_eq_push s k v hd rest hg hver]
                simp [hdel]
            | false =>
                refine Or.inl ?_
                rw [set_eq_push s k v hd rest hg hver]
                simp [hdel]
  | eraseOp k =>
      show (erase s k).sizes = s.sizes ∨
        (∃ f, (erase s k).sizes = modLast f s.sizes) ∨
        (erase s k).sizes = s.sizes ++ [size s]
      cases hg : getChain s.key_value_store k with
      | nil => exact Or.inl (by rw [erase_eq_nil s k hg])
      | cons hd rest =>
          refine Or.inr (Or.inl ⟨fun x => (x + W64 - 1) % W64, ?_⟩)
          by_cases hver : hd.version = maxVersion s
          · rw [erase_eq_cur s k hd rest hg hver]
          · rw [erase_eq_push s k hd rest hg hver]

theorem frozen_applyOp (s : VersionedKvStore K V) (op : Op K V) (i : Nat)
    (h : s.sizes ≠ []) (hi : i + 1 < s.sizes.length) :
    (applyOp s op).sizes.getD i 0 = s.sizes.getD i 0 ∧
    s.sizes.length ≤ (applyOp s op).sizes.length := by
  rcases sizes_applyOp_cases s op with hc | ⟨f, hc⟩ | hc <;> rw [hc]
  · exact ⟨rfl, Nat.le_refl _⟩
  · exact ⟨getD_modLast f _ i hi, Nat.le_of_eq (length_modLast f _ h).symm⟩
  · exact ⟨getD_append_left _ _ i (by omega), by simp⟩

theorem frozen_runFrom (ops : List (Op K V)) (s : VersionedKvStore K V) (i : Nat)
    (h : s.sizes ≠ []) (hi : i + 1 < s.sizes.length) :
    (runFrom s ops).sizes.getD i 0 = s.sizes.getD i 0 := by
  induction ops generalizing s with
  | nil => rfl
  | cons op rest ih =>
      have hf := frozen_applyOp s op i h hi
      have hne2 := sizes_applyOp_ne_nil s op h
      calc (runFrom s (op :: rest)).sizes.getD i 0
          = (runFrom (applyOp s op) rest).sizes.getD i 0 := rfl
        _ = (applyOp s op).sizes.getD i 0 := ih (applyOp s op) hne2 (by omega)
        _ = s.sizes.getD i 0 := hf.1

/-! ### Keys never written -/

theorem chain_untouched (ops : List (Op K V)) (s : VersionedKvStore K V) (k : K)
    (hu : untouched k ops = true) (h : getChain s.key_value_store k = []) :
    getChain (runFrom s ops).key_value_store k = [] := by
  induction ops generalizing s with
  | nil => exact h
  | cons op rest ih =>
      rw [untouched, List.all_cons, Bool.and_eq_true] at hu
      have h1 : getChain (applyOp s op).key_value_store k = [] := by
        cases op with
        | setOp k' v =>
            have hk : k' ≠ k := by simpa using hu.1
            show getChain (set s k' v).key_value_store k = []
            rw [getChain_set_ne s k' v k (Ne.symm hk)]
            exact h
        | eraseOp k' =>
            have hk : k' ≠ k := by simpa using hu.1
            show getChain (erase s k').key_value_store k = []
            rw [getChain_erase_ne s k' k (Ne.symm hk)]
            exact h
        | saveOp => exact h
      exact ih (applyOp s op) hu.2 h1

/-! ### Repeatedly writing the same value -/

theorem repSetSave_chain (k : K) (x : V) (n : Nat) :
    getChain (repSetSave k x n).key_value_store k = [⟨false, 0, x⟩] ∧
    (repSetSave k x n).sizes ≠ [] ∧ maxVersion (repSetSave k x n) = n := by
  induction n with
  | zero =>
      have hg : getChain (initStore : VersionedKvStore K V).key_value_store k = [] := rfl
      have hch : getChain (repSetSave k x 0).key_value_store k = [⟨false, 0, x⟩] := by
        show getChain (set initStore k x).key_value_store k = _
        rw [set_eq_nil initStore k x hg]
        rw [getChain_setChain_self]
        rfl
      refine ⟨hch, ?_, ?_⟩
      · show (set initStore k x).sizes ≠ []
        exact sizes_set_ne_nil initStore k x (by simp [initStore])
      · show maxVersion (set initStore k x) = 0
        rw [maxVersion_set initStore k x (by simp [initStore])]
        rfl
  | succ n ih =>
      obtain ⟨ihc, ihn, ihm⟩ := ih
      have hstep : repSetSave k x (n + 1) = set (save (repSetSave k x n)).1 k x := by
        show (fun s => set (save s).1 k x)^[n + 1] (set initStore k x) = _
        rw [Function.iterate_succ_apply']
        rfl
      have hlen : (repSetSave k x n).sizes.length = n + 1 := by
        have h0 : (repSetSave k x n).sizes.length ≠ 0 :=
          fun hz => ihn (List.length_eq_zero.1 hz)
        have := ihm
        rw [maxVersion] at this
        omega
      have hsne : (save (repSetSave k x n)).1.sizes ≠ [] := by
        show ((repSetSave k x n).sizes ++ [size (repSetSave k x n)]) ≠ []
        simp
      have hmv2 : maxVersion (save (repSetSave k x n)).1 = n + 1 := by
        rw [maxVersion_save, hlen]
      have hch2 : getChain (save (repSetSave k x n)).1.key_value_store k =
          [⟨false, 0, x⟩] := by
        rw [getChain_save]
        exact ihc
      have hch3 : getChain (repSetSave k x (n + 1)).key_value_store k = [⟨false, 0, x⟩] := by
        rw [hstep]
        have hver : (⟨false, 0, x⟩ : Diff V).version ≠
            maxVersion (save (repSetSave k x n)).1 := by
          rw [hmv2]
          simp
        rw [set_eq_push _ k x ⟨false, 0, x⟩ [] hch2 hver]
        rw [getChain_setChain_self]
        have he : diffsEqual (⟨false, maxVersion (save (repSetSave k x n)).1, x⟩ : Diff V)
            ⟨false, 0, x⟩ = true := by
          simp [diffsEqual]
        simp [checkAndDeleteRedundantDiff, he]
      refine ⟨hch3, ?_, ?_⟩
      · rw [hstep]
        exact sizes_set_ne_nil _ k x hsne
      · rw [hstep, maxVersion_set _ k x hsne, hmv2]

/-! ### The head of a chain right after `set` -/

theorem diff_eta_of_equal (d h2 : Diff V) (he : diffsEqual d h2 = true) :
    h2 = ⟨d.deleted, h2.version, d.value⟩ := by
  obtain ⟨hval, hdel⟩ := (diffsEqual_iff d h2).1 he
  cases h2
  simp_all

/-- After `set s k x`, the chain of `k` starts with a live node holding
`x` whose version is at most the (unchanged) current version. -/
theorem set_head_shape (s : VersionedKvStore K V) (k : K) (x : V) (hinv : StoreInv s) :
    ∃ hv rest, getChain (set s k x).key_value_store k = ⟨false, hv, x⟩ :: rest ∧
      hv ≤ maxVersion s := by
  cases hg : getChain s.key_value_store k with
  | nil =>
      refine ⟨maxVersion s, [], ?_, Nat.le_refl _⟩
      rw [set_eq_nil s k x hg]
      rw [getChain_setChain_self]
  | cons hd rest =>
      have hb0 : hd.version ≤ maxVersion s := by
        have := hinv.bounded k
        rw [hg] at this
        exact this
      have hsort : versionsDecreasing (hd :: rest) := by
        have := hinv.sorted k
        rw [hg] at this
        exact this
      by_cases hver : hd.version = maxVersion s
      · rw [set_eq_cur s k x hd rest hg hver, getChain_setChain_self]
        cases rest with
        | nil => exact ⟨hd.version, [], rfl, hb0⟩
        | cons h2 r2 =>
            have h2lt : h2.version < hd.version := (List.chain'_cons.1 hsort).1
            by_cases he : diffsEqual (⟨false, hd.version, x⟩ : Diff V) h2 = true
            · have heta := diff_eta_of_equal _ h2 he
              refine ⟨h2.version, r2, ?_, Nat.le_trans (Nat.le_of_lt h2lt) hb0⟩
              simp only [checkAndDeleteRedundantDiff, he, if_true]
              rw [heta]
            · refine ⟨hd.version, h2 :: r2, ?_, hb0⟩
              simp [checkAndDeleteRedundantDiff, Bool.eq_false_iff.2 he]
      · rw [set_eq_push s k x hd rest hg hver, getChain_setChain_self]
        by_cases he : diffsEqual (⟨false, maxVersion s, x⟩ : Diff V) hd = true
        · have heta := diff_eta_of_equal _ hd he
          refine ⟨hd.version, rest, ?_, hb0⟩
          simp only [checkAndDeleteRedundantDiff, he, if_true]
          rw [heta]
        · refine ⟨maxVersion s, hd :: rest, ?_, Nat.le_refl _⟩
          simp [checkAndDeleteRedundantDiff, Bool.eq_false_iff.2 he]

/-! ## The claims -/

/-- C1, counterexample: the claim states that `erase(key)` decrements
the current live-count in all cases, including when the key has no prior
chain entry.  On a fresh store, `erase` of a never-written key returns
early and leaves `sizes.back()` at `0` instead of wrapping it to
`2 ^ 64 - 1`. -/
theorem C1_counterexample :
    ¬ (size (erase (initStore : VersionedKvStore Nat Nat) 0) =
        (size (initStore : VersionedKvStore Nat Nat) + W64 - 1) % W64) := by
  decide

/-- C1, amended: `erase(key)` decrements the live-count of the current
version whenever the key has a chain entry — including when the head is
already a tombstone — but is a complete no-op (no decrement) when the
key has no chain entry. -/
theorem C1_erase_decrement (s : VersionedKvStore K V) (k : K) :
    (getChain s.key_value_store k = [] → erase s k = s) ∧
    (getChain s.key_value_store k ≠ [] →
      size (erase s k) = (size s + W64 - 1) % W64) := by
  constructor
  · exact erase_eq_nil s k
  · intro h
    cases hg : getChain s.key_value_store k with
    | nil => exact absurd hg h
    | cons hd rest => exact size_erase_cons s k hd rest hg

theorem C1_witness :
    (erase (initStore : VersionedKvStore Nat Nat) 0 = initStore) ∧
    size (erase (run [Op.setOp 0 5, Op.eraseOp 0] : VersionedKvStore Nat Nat) 0) =
      (size (run [Op.setOp 0 5, Op.eraseOp 0] : VersionedKvStore Nat Nat) + W64 - 1) % W64 :=
  ⟨(C1_erase_decrement initStore 0).1 (by decide),
   (C1_erase_decrement (run [Op.setOp 0 5, Op.eraseOp 0]) 0).2 (by decide)⟩

/-- C2, counterexample: the trace `set 0 1; erase 0; set 0 2` ends with
`sizes.back() = 0` while one key is live — the resurrecting `set` on a
current-version tombstone skips the increment — so the ledger invariant
fails on a reachable state. -/
theorem C2_counterexample :
    ¬ (size (run [Op.setOp 0 1, Op.eraseOp 0, Op.setOp 0 2] : VersionedKvStore Nat Nat) =
        liveCount (run [Op.setOp 0 1, Op.eraseOp 0, Op.setOp 0 2] :
          VersionedKvStore Nat Nat).key_value_store) := by
  decide

/-- C2, amended: along traces of fewer than `2 ^ 64` calls in which
every `erase` targets a currently-live key and no `set` revives a key
tombstoned inside the still-open version, the final ledger entry equals
the current live-key count and, for every `save` in the trace, the entry
it sealed equals the live-key count at that instant. -/
theorem C2_sizes_invariant (ops : List (Op K V))
    (hsafe : traceSafe initStore ops = true) (hlen : ops.length < W64) :
    size (run ops) = liveCount (run ops).key_value_store ∧
    ∀ p q, ops = p ++ Op.saveOp :: q →
      (run ops).sizes.getD (maxVersion (run p)) 0 =
        liveCount (run p).key_value_store := by
  have hinit_sz : size (initStore : VersionedKvStore K V) =
      liveCount (initStore : VersionedKvStore K V).key_value_store := rfl
  have hinit_ne : (initStore : VersionedKvStore K V).sizes ≠ [] := by simp [initStore]
  have hlive0 : liveCount (initStore : VersionedKvStore K V).key_value_store = 0 := rfl
  constructor
  · exact (trace_live ops initStore hsafe hinit_ne hinit_sz (by rw [hlive0]; omega)).1
  · intro p q hpq
    have hsplit : traceSafe (initStore : VersionedKvStore K V) p = true ∧
        traceSafe (runFrom initStore p) (Op.saveOp :: q) = true := by
      rw [hpq, traceSafe_append, Bool.and_eq_true] at hsafe
      exact hsafe
    have hplen : p.length < W64 := by
      rw [hpq] at hlen
      simp at hlen
      omega
    have hA0 := trace_live p initStore hsplit.1 hinit_ne hinit_sz (by rw [hlive0]; omega)
    have hA : size (run p) = liveCount (run p).key_value_store ∧ (run p).sizes ≠ [] := hA0
    have hrun : run ops = runFrom (save (run p)).1 q := by
      rw [hpq]
      show runFrom initStore (p ++ Op.saveOp :: q) = _
      rw [runFrom_append]
      rfl
    have hlenp : 1 ≤ (run p).sizes.length := by
      have hz : (run p).sizes.length ≠ 0 := fun hz => hA.2 (List.length_eq_zero.1 hz)
      omega
    have hmv : maxVersion (run p) = (run p).sizes.length - 1 := rfl
    have hfroz := frozen_runFrom q (save (run p)).1 (maxVersion (run p))
      (by show ((run p).sizes ++ [size (run p)]) ≠ []; simp)
      (by show maxVersion (run p) + 1 < ((run p).sizes ++ [size (run p)]).length
          rw [hmv]
          simp
          omega)
    rw [hrun, hfroz]
    show ((run p).sizes ++ [size (run p)]).getD (maxVersion (run p)) 0 = _
    rw [hmv, getD_append_left _ _ _ (by omega), getD_last _ hA.2]
    exact hA.1

theorem C2_witness :
    size (run [Op.setOp 0 5, Op.saveOp, Op.eraseOp 0] : VersionedKvStore Nat Nat) =
      liveCount (run [Op.setOp 0 5, Op.saveOp, Op.eraseOp 0] :
        VersionedKvStore Nat Nat).key_value_store ∧
    (run [Op.setOp 0 5, Op.saveOp, Op.eraseOp 0] : VersionedKvStore Nat Nat).sizes.getD
        (maxVersion (run [Op.setOp 0 5] : VersionedKvStore Nat Nat)) 0 =
      liveCount (run [Op.setOp 0 5] : VersionedKvStore Nat Nat).key_value_store :=
  ⟨(C2_sizes_invariant [Op.setOp 0 5, Op.saveOp, Op.eraseOp 0] (by decide) (by decide)).1,
   (C2_sizes_invariant [Op.setOp 0 5, Op.saveOp, Op.eraseOp 0] (by decide) (by decide)).2
     [Op.setOp 0 5] [Op.eraseOp 0] rfl⟩

/-- C3: snapshot isolation.  From any reachable store, after
`set(k, x); v = save(); set(k, y)`, the current read `get(k)` yields `y`
while the historical read `get(k, v)` still yields `x`. -/
theorem C3_snapshot_isolation (s : VersionedKvStore K V) (k : K) (x y : V)
    (hs : Reachable s) :
    get (set (save (set s k x)).1 k y) k = y ∧
    getAt (set (save (set s k x)).1 k y) k (save (set s k x)).2 = x := by
  have hinv : StoreInv s := reachable_inv s hs
  obtain ⟨hv, rest1, hchain1, hhv⟩ := set_head_shape s k x hinv
  have hinv1 : StoreInv (set s k x) := storeInv_set s k x hinv
  have hsort1 : versionsDecreasing ((⟨false, hv, x⟩ : Diff V) :: rest1) := by
    have := hinv1.sorted k
    rw [hchain1] at this
    exact this
  have hmv1 : maxVersion (set s k x) = maxVersion s :=
    maxVersion_set s k x hinv.sizesNonempty
  have hlen0 : s.sizes.length ≠ 0 :=
    fun hz => hinv.sizesNonempty (List.length_eq_zero.1 hz)
  have hmv2 : maxVersion (save (set s k x)).1 = maxVersion s + 1 := by
    rw [maxVersion_save, length_sizes_set s k x hinv.sizesNonempty]
    simp only [maxVersion]
    omega
  have hchain2 : getChain (save (set s k x)).1.key_value_store k =
      (⟨false, hv, x⟩ : Diff V) :: rest1 := hchain1
  have hret : (save (set s k x)).2 = maxVersion s := hmv1
  have hver2 : (⟨false, hv, x⟩ : Diff V).version ≠ maxVersion (save (set s k x)).1 := by
    rw [hmv2]
    show hv ≠ maxVersion s + 1
    omega
  by_cases he : diffsEqual (⟨false, maxVersion (save (set s k x)).1, y⟩ : Diff V)
      ⟨false, hv, x⟩ = true
  · have hyx : y = x := ((diffsEqual_iff _ _).1 he).1
    subst hyx
    have hchain3 : getChain (set (save (set s k y)).1 k y).key_value_store k =
        (⟨false, hv, y⟩ : Diff V) :: rest1 := by
      rw [set_eq_push _ k y ⟨false, hv, y⟩ rest1 hchain2 hver2, getChain_setChain_self]
      simp only [checkAndDeleteRedundantDiff, he, if_true]
    have htr := traverse_head_le (⟨false, hv, y⟩ : Diff V) rest1 (maxVersion s) hsort1 hhv
    constructor
    · simp [get, hchain3]
    · rw [hret]
      simp [getAt, hchain3, htr]
  · have hchain3 : getChain (set (save (set s k x)).1 k y).key_value_store k =
        (⟨false, maxVersion (save (set s k x)).1, y⟩ : Diff V) ::
          (⟨false, hv, x⟩ : Diff V) :: rest1 := by
      rw [set_eq_push _ k y ⟨false, hv, x⟩ rest1 hchain2 hver2, getChain_setChain_self]
      simp [checkAndDeleteRedundantDiff, Bool.eq_false_iff.2 he]
    constructor
    · simp [get, hchain3]
    · rw [hret]
      have h1 : ¬ maxVersion s < (⟨false, hv, x⟩ : Diff V).version := Nat.not_lt.2 hhv
      have h2 : maxVersion s <
          (⟨false, maxVersion (save (set s k x)).1, y⟩ : Diff V).version := by
        show maxVersion s < maxVersion (save (set s k x)).1
        omega
      simp [getAt, hchain3, traverseToVersion, h1, h2]

theorem C3_witness :
    get (set (save (set (initStore : VersionedKvStore Nat Nat) 1 5)).1 1 9) 1 = 9 ∧
    getAt (set (save (set (initStore : VersionedKvStore Nat Nat) 1 5)).1 1 9) 1
      (save (set (initStore : VersionedKvStore Nat Nat) 1 5)).2 = 5 :=
  C3_snapshot_isolation initStore 1 5 9 Reachable.init

/-- C4: on any reachable store, the historical lookup resolves to the
latest diff in the key's chain whose version is at most the requested
one, and when no such diff exists the key reads as absent at that
version (`exists` is `false`, `get` is the default value). -/
theorem C4_traverse_semantics (s : VersionedKvStore K V) (k : K) (v : Nat)
    (hs : Reachable s) :
    traverseToVersion v (getChain s.key_value_store k) =
      latestDiffLE v (getChain s.key_value_store k) ∧
    existsAt s k v = (latestDiffLE v (getChain s.key_value_store k)).elim false
      (fun d => !d.deleted) ∧
    getAt s k v = (latestDiffLE v (getChain s.key_value_store k)).elim default
      (fun d => if d.deleted then default else d.value) := by
  have h1 : traverseToVersion v (getChain s.key_value_store k) =
      latestDiffLE v (getChain s.key_value_store k) :=
    traverse_eq_find v _ ((reachable_inv s hs).sorted k)
  refine ⟨h1, ?_, ?_⟩
  · show (match traverseToVersion v (getChain s.key_value_store k) with
      | none => false
      | some d => !d.deleted) =
      (latestDiffLE v (getChain s.key_value_store k)).elim false (fun d => !d.deleted)
    rw [h1]
    cases latestDiffLE v (getChain s.key_value_store k) <;> rfl
  · show (match traverseToVersion v (getChain s.key_value_store k) with
      | none => default
      | some d => if d.deleted then default else d.value) =
      (latestDiffLE v (getChain s.key_value_store k)).elim default
        (fun d => if d.deleted then default else d.value)
    rw [h1]
    cases latestDiffLE v (getChain s.key_value_store k) <;> rfl

theorem C4_witness :
    traverseToVersion 3 (getChain (initStore : VersionedKvStore Nat Nat).key_value_store 0) =
      latestDiffLE 3 (getChain (initStore : VersionedKvStore Nat Nat).key_value_store 0) ∧
    existsAt (initStore : VersionedKvStore Nat Nat) 0 3 =
      (latestDiffLE 3
        (getChain (initStore : VersionedKvStore Nat Nat).key_value_store 0)).elim
        false (fun d => !d.deleted) ∧
    getAt (initStore : VersionedKvStore Nat Nat) 0 3 =
      (latestDiffLE 3
        (getChain (initStore : VersionedKvStore Nat Nat).key_value_store 0)).elim
        default (fun d => if d.deleted then default else d.value) :=
  C4_traverse_semantics initStore 0 3 Reachable.init

/-- C5: `save()` appends a copy of the current live-count to the
ledger, returns the pre-append `maxVersion()`, advances `maxVersion()`
by exactly one, and the new open version starts with the sealed
live-count. -/
theorem C5_save (s : VersionedKvStore K V) (hs : Reachable s) :
    (save s).1.sizes = s.sizes ++ [size s] ∧
    (save s).2 = maxVersion s ∧
    maxVersion (save s).1 = maxVersion s + 1 ∧
    size (save s).1 = size s := by
  have hne := (reachable_inv s hs).sizesNonempty
  refine ⟨rfl, rfl, ?_, getLastD_append_singleton _ _⟩
  rw [maxVersion_save]
  have hlen : s.sizes.length ≠ 0 := fun hz => hne (List.length_eq_zero.1 hz)
  simp only [maxVersion]
  omega

theorem C5_witness :
    (save (initStore : VersionedKvStore Nat Nat)).1.sizes =
        (initStore : VersionedKvStore Nat Nat).sizes ++
          [size (initStore : VersionedKvStore Nat Nat)] ∧
    (save (initStore : VersionedKvStore Nat Nat)).2 =
        maxVersion (initStore : VersionedKvStore Nat Nat) ∧
    maxVersion (save (initStore : VersionedKvStore Nat Nat)).1 =
        maxVersion (initStore : VersionedKvStore Nat Nat) + 1 ∧
    size (save (initStore : VersionedKvStore Nat Nat)).1 =
        size (initStore : VersionedKvStore Nat Nat) :=
  C5_save initStore Reachable.init

/-- C6: for a version strictly beyond `maxVersion()`, `size` and `get`
fall back to their current-state results; for a version within range,
`size(version)` reads `sizes[version]` directly. -/
theorem C6_future_fallback (s : VersionedKvStore K V) (k : K) (v : Nat)
    (hs : Reachable s) :
    (maxVersion s < v → sizeAt s v = size s ∧ getAt s k v = get s k) ∧
    (v ≤ maxVersion s → sizeAt s v = s.sizes.getD v 0) := by
  constructor
  · intro hv
    refine ⟨by simp [sizeAt, hv], ?_⟩
    cases hg : getChain s.key_value_store k with
    | nil => simp [getAt, get, hg, traverseToVersion]
    | cons hd rest =>
        have hsort := (reachable_inv s hs).sorted k
        rw [hg] at hsort
        have hb : hd.version ≤ maxVersion s := by
          have := (reachable_inv s hs).bounded k
          rw [hg] at this
          exact this
        have ht := traverse_head_le hd rest v hsort (Nat.le_trans hb (Nat.le_of_lt hv))
        simp [getAt, get, hg, ht]
  · intro hv
    simp [sizeAt, Nat.not_lt.2 hv]

theorem C6_witness :
    (maxVersion (initStore : VersionedKvStore Nat Nat) < 5 →
      sizeAt (initStore : VersionedKvStore Nat Nat) 5 =
          size (initStore : VersionedKvStore Nat Nat) ∧
        getAt (initStore : VersionedKvStore Nat Nat) 0 5 =
          get (initStore : VersionedKvStore Nat Nat) 0) ∧
    sizeAt (initStore : VersionedKvStore Nat Nat) 0 =
      (initStore : VersionedKvStore Nat Nat).sizes.getD 0 0 :=
  ⟨(C6_future_fallback initStore 0 5 Reachable.init).1,
   (C6_future_fallback initStore 0 0 Reachable.init).2 (by decide)⟩

/-- C7: in every reachable store no two adjacent chain nodes carry
identical `(value, deleted)`, and repeating `set(k, x)` with the same
value across any number of `save()` boundaries leaves `k`'s chain at the
single node written first. -/
theorem C7_compaction (s : VersionedKvStore K V) (k : K) (x : V) (n : Nat)
    (hs : Reachable s) :
    compacted (getChain s.key_value_store k) ∧
    getChain (repSetSave k x n).key_value_store k = [⟨false, 0, x⟩] :=
  ⟨(reachable_inv s hs).compact k, (repSetSave_chain k x n).1⟩

theorem C7_witness :
    compacted (getChain (initStore : VersionedKvStore Nat Nat).key_value_store 0) ∧
    getChain (repSetSave (0 : Nat) (5 : Nat) 3).key_value_store 0 = [⟨false, 0, 5⟩] :=
  C7_compaction initStore 0 5 3 Reachable.init

/-- C8: in every reachable store, walking any key's chain from its head
backward yields strictly decreasing version values. -/
theorem C8_versions_decreasing (s : VersionedKvStore K V) (k : K) (hs : Reachable s) :
    versionsDecreasing (getChain s.key_value_store k) :=
  (reachable_inv s hs).sorted k

theorem C8_witness :
    versionsDecreasing (getChain (initStore : VersionedKvStore Nat Nat).key_value_store 0) :=
  C8_versions_decreasing initStore 0 Reachable.init

/-- C9: a key never passed to `set` or `erase` reads as absent:
`exists` is `false` and `get` is the value type's default. -/
theorem C9_never_written (ops : List (Op K V)) (k : K) (hu : untouched k ops = true) :
    existsCur (run ops) k = false ∧ get (run ops) k = default := by
  have h0 := chain_untouched ops initStore k hu rfl
  have h : getChain (run ops).key_value_store k = [] := h0
  exact ⟨by simp [existsCur, h], by simp [get, h]⟩

theorem C9_witness :
    existsCur (run [Op.setOp 1 5, Op.saveOp] : VersionedKvStore Nat Nat) 0 = false ∧
    get (run [Op.setOp 1 5, Op.saveOp] : VersionedKvStore Nat Nat) 0 = default :=
  C9_never_written [Op.setOp 1 5, Op.saveOp] 0 (by decide)

/-- C10: `save()` is read-transparent — every current read and every
historical read at a version at most `maxVersion()` is unchanged by
sealing. -/
theorem C10_save_frame (s : VersionedKvStore K V) (k : K) (v : Nat)
    (hv : v ≤ maxVersion s) :
    get (save s).1 k = get s k ∧
    existsCur (save s).1 k = existsCur s k ∧
    getAt (save s).1 k v = getAt s k v ∧
    existsAt (save s).1 k v = existsAt s k v ∧
    size (save s).1 = size s ∧
    sizeAt (save s).1 v = sizeAt s v := by
  refine ⟨rfl, rfl, rfl, rfl, getLastD_append_singleton _ _, ?_⟩
  have h1 : ¬ maxVersion s < v := Nat.not_lt.2 hv
  have h2 : ¬ maxVersion (save s).1 < v := by
    rw [maxVersion_save]
    have h3 : maxVersion s ≤ s.sizes.length := Nat.sub_le _ _
    omega
  show (if maxVersion (save s).1 < v then size (save s).1 else (save s).1.sizes.getD v 0) =
    (if maxVersion s < v then size s else s.sizes.getD v 0)
  rw [if_neg h2, if_neg h1]
  show (s.sizes ++ [size s]).getD v 0 = s.sizes.getD v 0
  by_cases hnil : s.sizes = []
  · have hv0 : v = 0 := by
      simp only [maxVersion, hnil] at hv
      simpa using hv
    subst hv0
    rw [hnil]
    simp [size, hnil]
  · have hlen : s.sizes.length ≠ 0 := fun hz => hnil (List.length_eq_zero.1 hz)
    have hvlt : v < s.sizes.length := by
      simp only [maxVersion] at hv
      omega
    exact getD_append_left _ _ _ hvlt

theorem C10_witness :
    get (save (initStore : VersionedKvStore Nat Nat)).1 0 =
        get (initStore : VersionedKvStore Nat Nat) 0 ∧
    existsCur (save (initStore : VersionedKvStore Nat Nat)).1 0 =
        existsCur (initStore : VersionedKvStore Nat Nat) 0 ∧
    getAt (save (initStore : VersionedKvStore Nat Nat)).1 0 0 =
        getAt (initStore : VersionedKvStore Nat Nat) 0 0 ∧
    existsAt (save (initStore : VersionedKvStore Nat Nat)).1 0 0 =
        existsAt (initStore : VersionedKvStore Nat Nat) 0 0 ∧
    size (save (initStore : VersionedKvStore Nat Nat)).1 =
        size (initStore : VersionedKvStore Nat Nat) ∧
    sizeAt (save (initStore : VersionedKvStore Nat Nat)).1 0 =
        sizeAt (initStore : VersionedKvStore Nat Nat) 0 :=
  C10_save_frame initStore 0 0 (by decide)

end VersionedKv
